import Mathlib

/-
Verification of the difacto core against its sources.

`src/common/spmm.h` (the SpMM kernel) is embedded with dense buffers as
`List Int` (machine floats modelled by exact integers, as the kernel is
polymorphic in the scalar type) and the imperative loops as left folds
over index ranges.  The OpenMP parallel regions write pairwise disjoint
slices of the output, so an execution with `nt` threads is modelled as
running the per-thread loop bodies in sequence.

`src/difacto.cc` (orchestration) is embedded as event traces for the
straight-line parts and as a small-step transition relation for the parts
whose behaviour interleaves with asynchronous store callbacks.
-/

namespace Difacto

/-- Row-compressed sparse matrix (`dmlc::RowBlock`): `size` rows, `offset`
of length `size+1` delimiting each row's nonzeros, `index` the column ids
and an optional `value` array (absent means every nonzero weighs 1). -/
structure SpMat where
  size : Nat
  offset : List Nat
  index : List Nat
  value : Option (List Int)

/-- `D.offset[i]` (reads past the end give 0). -/
def SpMat.off (D : SpMat) (i : Nat) : Nat := D.offset.getD i 0

/-- `D.index[j]`. -/
def SpMat.idx (D : SpMat) (j : Nat) : Nat := D.index.getD j 0

/-- `D.value[j]`, taken to be 1 when the matrix carries no value array. -/
def SpMat.valAt (D : SpMat) (j : Nat) : Int :=
  match D.value with
  | some v => v.getD j 0
  | none => 1

/-- `for (j = a; j < b; ++j) s = f s j` (no iterations when `b ≤ a`). -/
def foldRange (a b : Nat) (f : α → Nat → α) (s : α) : α :=
  (List.range' a (b - a)).foldl f s

/-- Modelled from the spec: `src/common/range.h` is not under `src/`.
`Range(a, b).Segment(t, nt)` splits `[a, b)` into `nt` contiguous
segments covering it with no overlap and near-equal lengths (spec §4.1);
this model uses the proportional cut points `a + (b-a)*t/nt`. -/
def segLo (a b t nt : Nat) : Nat := a + (b - a) * t / nt

/-- Upper end of the `t`-th segment; see `segLo`. -/
def segHi (a b t nt : Nat) : Nat := a + (b - a) * (t + 1) / nt

/-- Modelled from the spec: `Range.Has(e)` — membership in the segment. -/
def segHas (a b t nt e : Nat) : Bool :=
  decide (segLo a b t nt ≤ e ∧ e < segHi a b t nt)

/-- One row of the private `SpMM::Times` (spmm.h lines 87-102): empty rows
are skipped, otherwise `y[i*dim+k] += x[index[j]*dim+k] * value[j]` over
the row's nonzeros (the value-less branch adds `x` directly). -/
def timesRowBody (D : SpMat) (x : List Int) (dim : Nat) (y : List Int) (i : Nat) : List Int :=
  if D.off i = D.off (i+1) then y
  else if D.value.isSome then
    foldRange (D.off i) (D.off (i+1)) (fun y j =>
      foldRange 0 dim (fun y k =>
        y.set (i*dim+k) (y.getD (i*dim+k) 0 + x.getD (D.idx j * dim + k) 0 * D.valAt j)) y) y
  else
    foldRange (D.off i) (D.off (i+1)) (fun y j =>
      foldRange 0 dim (fun y k =>
        y.set (i*dim+k) (y.getD (i*dim+k) 0 + x.getD (D.idx j * dim + k) 0)) y) y

/-- `for (i = 0; i < n; ++i) y[i] = g i` — models both `memset` (`g = 0`,
spmm.h lines 81 and 115) and the bias fill `y[i] = z[i]*p` (line 113). -/
def fillLoop (n : Nat) (g : Nat → Int) (y : List Int) : List Int :=
  foldRange 0 n (fun y i => y.set i (g i)) y

/-- Private `SpMM::Times` (spmm.h lines 78-104): zero `y[0, D.size*dim)`,
then each thread `t` runs the row body over its segment of `[0, D.size)`.
Threads write disjoint slices of `y`, so the parallel region is modelled
by running the threads in sequence. -/
def timesPriv (D : SpMat) (x : List Int) (dim nt : Nat) (y : List Int) : List Int :=
  foldRange 0 nt (fun y t =>
    foldRange (segLo 0 D.size t nt) (segHi 0 D.size t nt) (timesRowBody D x dim) y)
    (fillLoop (D.size * dim) (fun _ => 0) y)

/-- Public `SpMM::Times` (spmm.h lines 27-36): early return on empty `x`,
`dim = y->size() / D.size`. -/
def Times (D : SpMat) (x : List Int) (y : List Int) (nt : Nat) : List Int :=
  if x.isEmpty then y else timesPriv D x (y.length / D.size) nt y

/-- One row of the private `SpMM::TransTimes` (spmm.h lines 123-144) as run
by thread `t`: scatter `y[index[j]*dim+k] += x[i*dim+k] * value[j]` for the
nonzeros whose column index the thread owns (`Range(0, y_size/dim).Has`). -/
def transRowBody (D : SpMat) (x : List Int) (ySize dim nt t : Nat) (y : List Int) (i : Nat) :
    List Int :=
  if D.off i = D.off (i+1) then y
  else if D.value.isSome then
    foldRange (D.off i) (D.off (i+1)) (fun y j =>
      if segHas 0 (ySize / dim) t nt (D.idx j) then
        foldRange 0 dim (fun y k =>
          y.set (D.idx j * dim + k)
            (y.getD (D.idx j * dim + k) 0 + x.getD (i*dim+k) 0 * D.valAt j)) y
      else y) y
  else
    foldRange (D.off i) (D.off (i+1)) (fun y j =>
      if segHas 0 (ySize / dim) t nt (D.idx j) then
        foldRange 0 dim (fun y k =>
          y.set (D.idx j * dim + k)
            (y.getD (D.idx j * dim + k) 0 + x.getD (i*dim+k) 0)) y
      else y) y

/-- The initial fill of the private `SpMM::TransTimes` (spmm.h 112-116):
`y[i] = z[i]*p` for `i < y_size` when `z` is non-null, else `memset` 0. -/
def transInit (z : Option (List Int)) (p : Int) (ySize : Nat) (y : List Int) : List Int :=
  match z with
  | some zv => fillLoop ySize (fun i => zv.getD i 0 * p) y
  | none => fillLoop ySize (fun _ => 0) y

/-- Private `SpMM::TransTimes` (spmm.h lines 107-146): fill `y` with `z*p`
(zeros when `z` is null), then every thread scans all rows, keeping the
columns its output segment owns. -/
def transTimesPriv (D : SpMat) (x : List Int) (z : Option (List Int)) (p : Int)
    (ySize dim nt : Nat) (y : List Int) : List Int :=
  foldRange 0 nt (fun y t => foldRange 0 D.size (transRowBody D x ySize dim nt t) y)
    (transInit z p ySize y)

/-- Public biased `SpMM::TransTimes` (spmm.h lines 60-74): early return on
empty `x`, `dim = x.size() / D.size`; the bias `z` is used only when
`z.size() == y->size()` and `p != 0`. -/
def TransTimes (D : SpMat) (x : List Int) (p : Int) (z : List Int) (y : List Int) (nt : Nat) :
    List Int :=
  if x.isEmpty then y
  else if z.length = y.length ∧ p ≠ 0 then
    transTimesPriv D x (some z) p y.length (x.length / D.size) nt y
  else
    transTimesPriv D x none 0 y.length (x.length / D.size) nt y

/-- Public two-argument `SpMM::TransTimes` (spmm.h lines 44-50): it calls
the biased form with `p = 0` and an empty `z`. -/
def TransTimesPlain (D : SpMat) (x : List Int) (y : List Int) (nt : Nat) : List Int :=
  TransTimes D x 0 [] y nt

/-- The nonzero positions of row `i`: `[offset[i], offset[i+1])`. -/
def rowJs (D : SpMat) (i : Nat) : List Nat :=
  List.range' (D.off i) (D.off (i+1) - D.off i)

/-- Row `i`, column `k` of the product `D·x`:
`Σ_{j ∈ [offset[i], offset[i+1])} value[j] * x[index[j]*dim + k]`. -/
def rowSum (D : SpMat) (x : List Int) (dim i k : Nat) : Int :=
  ((rowJs D i).map (fun j => D.valAt j * x.getD (D.idx j * dim + k) 0)).sum

/-- Entry `e*dim+k` of the transpose product `Dᵀ·x`: the scatter-add of
`value[j] * x[i*dim+k]` over all nonzeros `j` with `index[j] = e`. -/
def colSum (D : SpMat) (x : List Int) (dim e k : Nat) : Int :=
  ((List.range D.size).map (fun i =>
    ((rowJs D i).map (fun j =>
      if D.idx j = e then D.valAt j * x.getD (i*dim+k) 0 else 0)).sum)).sum

/-- The 3×2 example matrix: rows `[(col0, 1)]`, `[(col0, 2), (col1, 3)]`, `[]`. -/
def Dex : SpMat := ⟨3, [0, 1, 3, 3], [0, 0, 1], some [1, 2, 3]⟩

/-- A 2×2 matrix with no value array: rows `[(col1)]`, `[(col0)]`. -/
def DexNoVal : SpMat := ⟨2, [0, 1, 2], [1, 0], none⟩

/-! ### Orchestration (`src/difacto.cc`) -/

/-- Job types (`Job::kTraining` and friends). -/
inductive Jt where
  | Training
  | Validation
  | Prediction
  | LoadModel
  | SaveModel
deriving DecidableEq

/-- Observable actions of one iteration of the `ProcessFile` streaming
loop (difacto.cc 176-199). -/
inductive BEv where
  | compact (b : Nat) (withCnt : Bool)
  | pushCnt (b : Nat)
  | waitCnt (b : Nat)
  | addBatch (b : Nat)
deriving DecidableEq

/-- `job.type == Job::kTraining && job.epoch == 0` (difacto.cc 184-185). -/
def pushCntFlag (jt : Jt) (epoch : Nat) : Bool :=
  decide (jt = Jt.Training) && decide (epoch = 0)

/-- The events one loop iteration emits for batch `b` (difacto.cc 176-199):
localizer compaction (requesting counts iff `pushCntFlag`), then — for a
first-epoch training batch — the `FeaCount` push and the blocking
`Store::Wait` on it, and finally the submission to the batch tracker. -/
def batchEvs (jt : Jt) (epoch b : Nat) : List BEv :=
  [BEv.compact b (pushCntFlag jt epoch)]
    ++ (if pushCntFlag jt epoch then [BEv.pushCnt b, BEv.waitCnt b] else [])
    ++ [BEv.addBatch b]

/-- The whole streaming loop of `ProcessFile` over `n` batches, in
execution order. -/
def processFileEvs (jt : Jt) (epoch n : Nat) : List BEv :=
  (List.range n).flatMap (batchEvs jt epoch)

/-- The batch an event belongs to. -/
def BEv.batchOf : BEv → Nat
  | compact b _ => b
  | pushCnt b => b
  | waitCnt b => b
  | addBatch b => b

/-- Status of one streamed batch inside the batch pipeline (difacto.cc
136-174): `submitted` — the weight pull is outstanding; `pushing` —
(training only) the gradient push is outstanding; `done` — `on_complete`
has fired. -/
inductive BSt where
  | submitted
  | pushing
  | done
deriving DecidableEq

/-- State of one `ProcessFile` call: batches the reader has not yet
produced, the status of each streamed batch, and whether the call has
returned. -/
structure PFState where
  pending : Nat
  batches : List BSt
  returned : Bool

/-- `Tracker::NumRemains()`: submitted-but-not-completed count. -/
def numRemains (s : PFState) : Nat :=
  s.batches.countP (fun st => st != BSt.done)

/-- Small-step semantics of `ProcessFile` (difacto.cc 127-202) for a fixed
job type.  `read` is one producer-loop iteration: it fires only after the
backpressure loop at line 196 has observed `NumRemains() <= 10` (between
that observation and `Add` the count can only shrink, as only the producer
adds), and `Tracker::Add` synchronously starts the consumer, which issues
the asynchronous weight pull and returns.  `pullDone` is the store's
pull callback (difacto.cc 140-172): a training batch then has its gradient
push outstanding, any other batch completes immediately.  `pushDone` is
the gradient-push done-callback (difacto.cc 158), the only completion path
of a training batch.  `ret` is the drain loop at line 201 letting
`ProcessFile` return. -/
inductive PFStep (jt : Jt) : PFState → PFState → Prop where
  | read (s : PFState) (hp : 0 < s.pending) (hbp : numRemains s ≤ 10)
      (hr : s.returned = false) :
      PFStep jt s ⟨s.pending - 1, s.batches ++ [BSt.submitted], false⟩
  | pullDone (s : PFState) (i : Nat) (hi : s.batches[i]? = some BSt.submitted) :
      PFStep jt s ⟨s.pending,
        s.batches.set i (if jt = Jt.Training then BSt.pushing else BSt.done),
        s.returned⟩
  | pushDone (s : PFState) (i : Nat) (hi : s.batches[i]? = some BSt.pushing) :
      PFStep jt s ⟨s.pending, s.batches.set i BSt.done, s.returned⟩
  | ret (s : PFState) (hp : s.pending = 0) (hdrain : numRemains s = 0)
      (hr : s.returned = false) :
      PFStep jt s ⟨0, s.batches, true⟩

/-- States reachable by a `ProcessFile` call on a partition the reader
splits into `n` batches. -/
def PFReach (jt : Jt) (n : Nat) (s : PFState) : Prop :=
  Relation.ReflTransGen (PFStep jt) ⟨n, [], false⟩ s

/-- `true` when `pre` starts `hay` (character lists). -/
def startsWithL : List Char → List Char → Bool
  | [], _ => true
  | _ :: _, [] => false
  | a :: as, c :: cs => a == c && startsWithL as cs

/-- `std::string::find(needle) != npos` on character lists. -/
def hasSubL (needle : List Char) : List Char → Bool
  | [] => needle.isEmpty
  | c :: cs => startsWithL needle (c :: cs) || hasSubL needle cs

/-- `task.find(needle) != std::string::npos`. -/
def hasSub (needle hay : String) : Bool := hasSubL needle.toList hay.toList

/-- `local_` of `DiFacto::Init` (difacto.cc 27): the task string does not
contain `"dist_"`. -/
def isLocal (task : String) : Bool := !hasSub "dist_" task

/-- Outcome of `DiFacto::Init`: the unconsumed keyword arguments it
returns and whether the unknown-argument warning was logged. -/
structure InitOut where
  remain : List (String × String)
  warned : Bool

/-- `DiFacto::Init` (difacto.cc 25-54).  The parameter, job-tracker, store
and loss sub-inits are external collaborators; they are modelled as
arbitrary functions from keyword arguments to the arguments they leave
unconsumed, chained in source order.  The warning at lines 49-52 fires iff
`local_` and the final remainder is nonempty. -/
def difactoInit (task : String)
    (paramInit trackerInit storeInit lossInit :
      List (String × String) → List (String × String))
    (kwargs : List (String × String)) : InitOut :=
  { remain := lossInit (storeInit (trackerInit (paramInit kwargs))),
    warned := isLocal task
      && !(lossInit (storeInit (trackerInit (paramInit kwargs)))).isEmpty }

/-- The `DiFactoParam` fields `RunScheduler`/`RunEpoch` read. -/
structure DFParam where
  task : String
  model_in : String
  data_in : String
  val_data : String
  max_num_epochs : Nat

/-- Scheduler-visible actions of `DiFacto::RunScheduler` (difacto.cc
56-107). -/
inductive SEv where
  | loadModel (fn : String)
  | addJobs (jt : Jt) (epoch : Nat) (nparts : Nat)
  | epochCb
deriving DecidableEq

/-- `DiFacto::RunEpoch` (difacto.cc 88-107): picks the data or validation
file, returns without submitting when it is empty, else submits 100
partition jobs to the job tracker. -/
def runEpochEvs (p : DFParam) (epoch : Nat) (jt : Jt) : List SEv :=
  if (if jt = Jt.Validation then p.val_data else p.data_in) = "" then []
  else [SEv.addJobs jt epoch 100]

/-- The training loop of `RunScheduler` (difacto.cc 81-85): per epoch a
training pass, a validation pass and the epoch callbacks. -/
def trainEvs (p : DFParam) : List SEv :=
  (List.range p.max_num_epochs).flatMap (fun e =>
    runEpochEvs p e Jt.Training ++ runEpochEvs p e Jt.Validation ++ [SEv.epochCb])

/-- `DiFacto::RunScheduler` (difacto.cc 56-86): the actions it performs in
order, paired with whether the `CHECK(param_.model_in.size())` at line 76
failed — a fatal abort that prevents everything after it. -/
def runScheduler (p : DFParam) : List SEv × Bool :=
  if hasSub "predict" p.task then
    if p.model_in = "" then
      ((if p.model_in ≠ "" then [SEv.loadModel p.model_in] else []), true)
    else
      ((if p.model_in ≠ "" then [SEv.loadModel p.model_in] else [])
        ++ runEpochEvs p 0 Jt.Prediction ++ trainEvs p, false)
  else
    ((if p.model_in ≠ "" then [SEv.loadModel p.model_in] else []) ++ trainEvs p, false)

/-! ### Write-accumulate batches

Every loop of the kernel either overwrites a prefix of `y` (`fillLoop`) or
performs a sequence of `y[t] += c` updates whose deltas do not depend on
`y`.  `applyOps` captures the latter; `sumAt` is the total delta a batch
contributes at one position. -/

/-- Apply a list of `y[t] += c` updates in order. -/
def applyOps (L : List (Nat × Int)) (y : List Int) : List Int :=
  L.foldl (fun y tc => y.set tc.1 (y.getD tc.1 0 + tc.2)) y

/-- Total delta contributed at position `m`. -/
def sumAt (L : List (Nat × Int)) (m : Nat) : Int :=
  (L.map (fun tc => if tc.1 = m then tc.2 else 0)).sum

/-- The updates of the `k`-loop at nonzero `j` of row `i`. -/
def timesKList (D : SpMat) (x : List Int) (dim i j : Nat) : List (Nat × Int) :=
  (List.range dim).map (fun k => (i*dim+k, x.getD (D.idx j * dim + k) 0 * D.valAt j))

/-- The updates of one row of `Times`. -/
def timesRowList (D : SpMat) (x : List Int) (dim i : Nat) : List (Nat × Int) :=
  (rowJs D i).flatMap (timesKList D x dim i)

/-- The row indices thread `t` owns. -/
def segRows (n t nt : Nat) : List Nat :=
  List.range' (segLo 0 n t nt) (segHi 0 n t nt - segLo 0 n t nt)

/-- All updates of `timesPriv` in execution order. -/
def timesList (D : SpMat) (x : List Int) (dim nt : Nat) : List (Nat × Int) :=
  (List.range nt).flatMap (fun t => (segRows D.size t nt).flatMap (timesRowList D x dim))

/-- The updates of the `k`-loop at nonzero `j` of row `i` (transpose). -/
def transKList (D : SpMat) (x : List Int) (dim i j : Nat) : List (Nat × Int) :=
  (List.range dim).map (fun k => (D.idx j * dim + k, x.getD (i*dim+k) 0 * D.valAt j))

/-- The updates thread `t` performs while scanning row `i` (transpose):
only nonzeros whose column the thread owns survive. -/
def transRowList (D : SpMat) (x : List Int) (mC dim nt t i : Nat) : List (Nat × Int) :=
  (rowJs D i).flatMap (fun j =>
    if segHas 0 mC t nt (D.idx j) then transKList D x dim i j else [])

/-- All updates of `transTimesPriv` in execution order. -/
def transList (D : SpMat) (x : List Int) (mC dim nt : Nat) : List (Nat × Int) :=
  (List.range nt).flatMap (fun t =>
    (List.range D.size).flatMap (transRowList D x mC dim nt t))

/-- The value the initial fill writes at `m`. -/
def transInitVal (z : Option (List Int)) (p : Int) (m : Nat) : Int :=
  match z with
  | some zv => zv.getD m 0 * p
  | none => 0

theorem getD_set (y : List Int) (n m : Nat) (v : Int) :
    (y.set n v).getD m 0 = if n = m ∧ n < y.length then v else y.getD m 0 := by
  rw [List.getD_eq_getElem?_getD, List.getD_eq_getElem?_getD, List.getElem?_set]
  by_cases h1 : n = m
  · subst h1
    by_cases h2 : n < y.length
    · simp [h2]
    · simp only [if_pos rfl, if_neg h2, List.getElem?_eq_none (Nat.le_of_not_lt h2)]
      simp [h2]
  · simp [h1]

theorem applyOps_nil (y : List Int) : applyOps [] y = y := rfl

theorem applyOps_cons (tc : Nat × Int) (L : List (Nat × Int)) (y : List Int) :
    applyOps (tc :: L) y = applyOps L (y.set tc.1 (y.getD tc.1 0 + tc.2)) := rfl

theorem applyOps_append (L1 L2 : List (Nat × Int)) (y : List Int) :
    applyOps (L1 ++ L2) y = applyOps L2 (applyOps L1 y) :=
  List.foldl_append _ _ _ _

theorem length_applyOps (L : List (Nat × Int)) (y : List Int) :
    (applyOps L y).length = y.length := by
  induction L generalizing y with
  | nil => rfl
  | cons tc L ih => rw [applyOps_cons, ih, List.length_set]

theorem sumAt_nil (m : Nat) : sumAt [] m = 0 := rfl

theorem sumAt_cons (tc : Nat × Int) (L : List (Nat × Int)) (m : Nat) :
    sumAt (tc :: L) m = (if tc.1 = m then tc.2 else 0) + sumAt L m := by
  simp [sumAt]

theorem sumAt_append (L1 L2 : List (Nat × Int)) (m : Nat) :
    sumAt (L1 ++ L2) m = sumAt L1 m + sumAt L2 m := by
  simp [sumAt]

theorem sumAt_flatMap {β : Type} (l : List β) (g : β → List (Nat × Int)) (m : Nat) :
    sumAt (l.flatMap g) m = (l.map (fun b => sumAt (g b) m)).sum := by
  induction l with
  | nil => rfl
  | cons b l ih => rw [List.flatMap_cons, sumAt_append, ih, List.map_cons, List.sum_cons]

theorem sumAt_map {β : Type} (l : List β) (tg : β → Nat) (c : β → Int) (m : Nat) :
    sumAt (l.map (fun b => (tg b, c b))) m
      = (l.map (fun b => if tg b = m then c b else 0)).sum := by
  simp [sumAt, List.map_map]
  rfl

/-- The entry of `applyOps L y` at `m`: the old value plus the total delta,
no change at out-of-range positions (`List.set` past the end is a no-op,
and those reads default to 0 on both sides). -/
theorem getD_applyOps (L : List (Nat × Int)) (y : List Int) (m : Nat) :
    (applyOps L y).getD m 0
      = y.getD m 0 + if m < y.length then sumAt L m else 0 := by
  induction L generalizing y with
  | nil => simp [applyOps_nil, sumAt_nil]
  | cons tc L ih =>
    rw [applyOps_cons, ih, List.length_set, sumAt_cons, getD_set]
    by_cases hm : m < y.length
    · rw [if_pos hm, if_pos hm]
      by_cases he : tc.1 = m
      · subst he
        rw [if_pos ⟨rfl, hm⟩]
        simp only [if_pos trivial, if_pos rfl]
        ring
      · rw [if_neg (by exact fun hc => he hc.1), if_neg he]
        ring
    · rw [if_neg hm, if_neg hm,
        if_neg (by exact fun hc => hm (hc.1 ▸ hc.2))]

/-- A fold whose body is itself a batch of updates is the flattened batch. -/
theorem foldl_applyOps {β : Type} (l : List β) (g : β → List (Nat × Int)) (y : List Int) :
    l.foldl (fun y b => applyOps (g b) y) y = applyOps (l.flatMap g) y := by
  induction l generalizing y with
  | nil => rfl
  | cons b l ih => rw [List.foldl_cons, List.flatMap_cons, applyOps_append, ih]

/-- A fold of single `y[tg k] += c k` updates is a batch of updates. -/
theorem foldl_setAdd (l : List Nat) (tg : Nat → Nat) (c : Nat → Int) (y : List Int) :
    l.foldl (fun y k => y.set (tg k) (y.getD (tg k) 0 + c k)) y
      = applyOps (l.map (fun k => (tg k, c k))) y := by
  rw [applyOps, List.foldl_map]

/-! ### The fill loops -/

theorem length_foldl_set (l : List Nat) (g : Nat → Int) (y : List Int) :
    (l.foldl (fun y i => y.set i (g i)) y).length = y.length := by
  induction l generalizing y with
  | nil => rfl
  | cons a l ih => rw [List.foldl_cons, ih, List.length_set]

theorem length_fillLoop (n : Nat) (g : Nat → Int) (y : List Int) :
    (fillLoop n g y).length = y.length :=
  length_foldl_set _ g y

theorem fillLoop_succ (n : Nat) (g : Nat → Int) (y : List Int) :
    fillLoop (n+1) g y = (fillLoop n g y).set n (g n) := by
  unfold fillLoop foldRange
  rw [Nat.sub_zero, Nat.sub_zero, show n + 1 = 1 + n from Nat.add_comm n 1,
    ← List.range'_append 0 n 1 1, List.foldl_append]
  simp [List.range'_one]

theorem getD_fillLoop (n : Nat) (g : Nat → Int) (y : List Int) (m : Nat) :
    (fillLoop n g y).getD m 0 = if m < n ∧ m < y.length then g m else y.getD m 0 := by
  induction n with
  | zero =>
    rw [if_neg (by omega)]
    rfl
  | succ n ih =>
    rw [fillLoop_succ, getD_set, ih, length_fillLoop]
    by_cases h1 : n = m
    · subst h1
      by_cases h2 : n < y.length
      · rw [if_pos ⟨rfl, h2⟩, if_pos ⟨Nat.lt_succ_self n, h2⟩]
      · rw [if_neg (fun hc => h2 hc.2), if_neg (fun hc => h2 hc.2),
          if_neg (fun hc => h2 hc.2)]
    · rw [if_neg (fun hc => h1 hc.1)]
      by_cases h3 : m < n ∧ m < y.length
      · rw [if_pos h3, if_pos ⟨Nat.lt_succ_of_lt h3.1, h3.2⟩]
      · rw [if_neg h3, if_neg (by
          intro hc
          exact h3 ⟨by omega, hc.2⟩)]

/-! ### Indicator sums -/

theorem sum_ite_range' (f : Nat → Int) (k : Nat) :
    ∀ (n a : Nat), ((List.range' a n).map (fun i => if i = k then f i else 0)).sum
      = if a ≤ k ∧ k < a + n then f k else 0
  | 0, a => by
    rw [if_neg (by omega)]
    rfl
  | n+1, a => by
    rw [List.range'_succ, List.map_cons, List.sum_cons, sum_ite_range' f k n (a+1)]
    by_cases h : a = k
    · subst h
      rw [if_pos rfl, if_neg (by omega), if_pos (by omega), add_zero]
    · rw [if_neg h]
      by_cases h2 : a + 1 ≤ k ∧ k < a + 1 + n
      · rw [if_pos h2, if_pos (by omega), zero_add]
      · rw [if_neg h2, if_neg (by omega), zero_add]

theorem sum_ite_range (f : Nat → Int) (k n : Nat) :
    ((List.range n).map (fun i => if i = k then f i else 0)).sum
      = if k < n then f k else 0 := by
  rw [List.range_eq_range', sum_ite_range' f k n 0]
  by_cases h : k < n
  · rw [if_pos (by omega), if_pos h]
  · rw [if_neg (by omega), if_neg h]

theorem sum_ite_unique (n t0 : Nat) (P : Nat → Bool) (S : Int)
    (ht0 : t0 < n) (hP : P t0 = true) (huniq : ∀ t, t < n → P t = true → t = t0) :
    ((List.range n).map (fun t => if P t then S else 0)).sum = S := by
  have hc : ∀ t ∈ List.range n,
      (if P t then S else 0) = (if t = t0 then (fun _ : Nat => S) t else 0) := by
    intro t ht
    rw [List.mem_range] at ht
    by_cases h : P t = true
    · rw [if_pos h, if_pos (huniq t ht h)]
    · rw [if_neg h, if_neg (by
        intro he
        subst he
        exact h hP)]
  rw [List.map_congr_left hc, sum_ite_range (fun _ => S) t0 n, if_pos ht0]

theorem sum_map_zero {β : Type} (l : List β) :
    (l.map (fun _ => (0 : Int))).sum = 0 := by
  induction l with
  | nil => rfl
  | cons b l ih => rw [List.map_cons, List.sum_cons, ih, add_zero]

/-! ### Segment partition -/

theorem segLo_zero (b t nt : Nat) : segLo 0 b t nt = b * t / nt := by
  simp [segLo]

theorem segHi_zero (b t nt : Nat) : segHi 0 b t nt = b * (t+1) / nt := by
  simp [segHi]

theorem boundary_exists (B : Nat → Nat) (e : Nat) :
    ∀ (N : Nat), B 0 ≤ e → e < B N → ∃ t, t < N ∧ B t ≤ e ∧ e < B (t+1)
  | 0, h0, hN => absurd (Nat.lt_of_le_of_lt h0 hN) (Nat.lt_irrefl (B 0))
  | N+1, h0, hN => by
    by_cases h : B N ≤ e
    · exact ⟨N, Nat.lt_succ_self N, h, hN⟩
    · obtain ⟨t, ht, h1, h2⟩ := boundary_exists B e N h0 (Nat.lt_of_not_le h)
      exact ⟨t, Nat.lt_succ_of_lt ht, h1, h2⟩

theorem boundary_unique (B : Nat → Nat) (mono : ∀ s t, s ≤ t → B s ≤ B t)
    (e t t' : Nat) (h1 : B t ≤ e) (h2 : e < B (t+1)) (h3 : B t' ≤ e)
    (h4 : e < B (t'+1)) : t = t' := by
  by_contra hne
  rcases Nat.lt_or_ge t t' with h | h
  · have := mono (t+1) t' h
    omega
  · have ht : t' < t := by omega
    have := mono (t'+1) t ht
    omega

theorem seg_mono (b nt : Nat) : ∀ s t, s ≤ t → b * s / nt ≤ b * t / nt :=
  fun _ _ h => Nat.div_le_div_right (Nat.mul_le_mul_left b h)

/-- Exactly one thread owns each in-range index, so an indicator sum over
the threads collapses to its single owned value. -/
theorem segOwner (b nt e : Nat) (hnt : 0 < nt) (he : e < b) (S : Int) :
    ((List.range nt).map (fun t => if segHas 0 b t nt e then S else 0)).sum = S := by
  have hB0 : b * 0 / nt ≤ e := by simp
  have hBN : e < b * nt / nt := by
    rw [Nat.mul_div_cancel b hnt]
    exact he
  obtain ⟨t0, ht0, hlo, hhi⟩ := boundary_exists (fun t => b * t / nt) e nt hB0 hBN
  refine sum_ite_unique nt t0 _ S ht0 ?_ ?_
  · rw [segHas, decide_eq_true_eq, segLo_zero, segHi_zero]
    exact ⟨hlo, hhi⟩
  · intro t ht hP
    rw [segHas, decide_eq_true_eq, segLo_zero, segHi_zero] at hP
    exact boundary_unique (fun t => b * t / nt) (seg_mono b nt) e t t0 hP.1 hP.2 hlo hhi

theorem segLo_le_segHi (b t nt : Nat) : segLo 0 b t nt ≤ segHi 0 b t nt := by
  rw [segLo_zero, segHi_zero]
  exact seg_mono b nt t (t+1) (Nat.le_succ t)

theorem segHas_iff_mem (b nt t e : Nat) :
    segHas 0 b t nt e = true
      ↔ (segLo 0 b t nt ≤ e ∧ e < segLo 0 b t nt + (segHi 0 b t nt - segLo 0 b t nt)) := by
  rw [segHas, decide_eq_true_eq]
  have := segLo_le_segHi b t nt
  omega

/-! ### `Times` as a batch of updates -/

theorem foldRange_eq_foldl (a b : Nat) (f : α → Nat → α) (s : α) :
    foldRange a b f s = (List.range' a (b - a)).foldl f s := rfl

theorem timesRowBody_eq (D : SpMat) (x : List Int) (dim : Nat) (y : List Int) (i : Nat) :
    timesRowBody D x dim y i = applyOps (timesRowList D x dim i) y := by
  by_cases h : D.off i = D.off (i+1)
  · rw [timesRowBody, if_pos h, timesRowList, rowJs, h, Nat.sub_self]
    rfl
  · rw [timesRowBody, if_neg h, timesRowList]
    cases hv : D.value with
    | some v =>
      rw [if_pos (by rfl)]
      rw [foldRange_eq_foldl]
      have hbody : (fun (y : List Int) (j : Nat) =>
          foldRange 0 dim (fun y k =>
            y.set (i*dim+k)
              (y.getD (i*dim+k) 0 + x.getD (D.idx j * dim + k) 0 * D.valAt j)) y)
          = (fun (y : List Int) (j : Nat) => applyOps (timesKList D x dim i j) y) := by
        funext y j
        rw [foldRange_eq_foldl, Nat.sub_zero, ← List.range_eq_range', timesKList]
        exact foldl_setAdd (List.range dim) _ _ y
      rw [hbody, foldl_applyOps, rowJs]
    | none =>
      rw [if_neg (by simp)]
      rw [foldRange_eq_foldl]
      have hvj : ∀ j, D.valAt j = 1 := by
        intro j
        rw [SpMat.valAt, hv]
      have hklist : ∀ j, timesKList D x dim i j
          = (List.range dim).map (fun k => (i*dim+k, x.getD (D.idx j * dim + k) 0)) := by
        intro j
        simp only [timesKList, hvj, mul_one]
      have hbody : (fun (y : List Int) (j : Nat) =>
          foldRange 0 dim (fun y k =>
            y.set (i*dim+k) (y.getD (i*dim+k) 0 + x.getD (D.idx j * dim + k) 0)) y)
          = (fun (y : List Int) (j : Nat) => applyOps (timesKList D x dim i j) y) := by
        funext y j
        rw [foldRange_eq_foldl, Nat.sub_zero, ← List.range_eq_range', hklist j]
        exact foldl_setAdd (List.range dim) _ _ y
      rw [hbody, foldl_applyOps, rowJs]

theorem timesPriv_eq (D : SpMat) (x : List Int) (dim nt : Nat) (y : List Int) :
    timesPriv D x dim nt y
      = applyOps (timesList D x dim nt) (fillLoop (D.size * dim) (fun _ => 0) y) := by
  rw [timesPriv, foldRange_eq_foldl, Nat.sub_zero, ← List.range_eq_range']
  have hrow : (timesRowBody D x dim)
      = (fun (y : List Int) (i : Nat) => applyOps (timesRowList D x dim i) y) := by
    funext y i
    exact timesRowBody_eq D x dim y i
  have hthread : (fun (y : List Int) (t : Nat) =>
      foldRange (segLo 0 D.size t nt) (segHi 0 D.size t nt) (timesRowBody D x dim) y)
      = (fun (y : List Int) (t : Nat) =>
          applyOps ((segRows D.size t nt).flatMap (timesRowList D x dim)) y) := by
    funext y t
    rw [foldRange_eq_foldl, hrow, foldl_applyOps]
    rfl
  rw [hthread, foldl_applyOps, timesList]

/-- With `k, k' < dim`, equal flat positions mean equal block coordinates. -/
theorem blockInj (dim i k i0 k0 : Nat) (hk : k < dim) (hk0 : k0 < dim)
    (h : i*dim+k = i0*dim+k0) : i = i0 ∧ k = k0 := by
  have hd : 0 < dim := Nat.lt_of_le_of_lt (Nat.zero_le k) hk
  have h1 : (i*dim+k)/dim = i := by
    rw [Nat.mul_comm i dim, Nat.mul_add_div hd, Nat.div_eq_of_lt hk, Nat.add_zero]
  have h2 : (i0*dim+k0)/dim = i0 := by
    rw [Nat.mul_comm i0 dim, Nat.mul_add_div hd, Nat.div_eq_of_lt hk0, Nat.add_zero]
  have hi : i = i0 := by rw [← h1, ← h2, h]
  subst hi
  exact ⟨rfl, by omega⟩

theorem sumAt_timesKList (D : SpMat) (x : List Int) (dim i j i0 k0 : Nat)
    (hk0 : k0 < dim) :
    sumAt (timesKList D x dim i j) (i0*dim+k0)
      = if i = i0 then x.getD (D.idx j * dim + k0) 0 * D.valAt j else 0 := by
  rw [timesKList, sumAt_map]
  by_cases hi : i = i0
  · subst hi
    rw [if_pos rfl]
    have hc : ∀ k ∈ List.range dim,
        (if i*dim+k = i*dim+k0 then x.getD (D.idx j * dim + k) 0 * D.valAt j else 0)
          = (if k = k0 then (fun k => x.getD (D.idx j * dim + k) 0 * D.valAt j) k else 0) := by
      intro k hk
      by_cases he : k = k0
      · subst he
        rw [if_pos rfl, if_pos rfl]
      · rw [if_neg (by omega), if_neg he]
    rw [List.map_congr_left hc, sum_ite_range _ k0 dim, if_pos hk0]
  · rw [if_neg hi]
    have hc : ∀ k ∈ List.range dim,
        (if i*dim+k = i0*dim+k0 then x.getD (D.idx j * dim + k) 0 * D.valAt j else 0)
          = (fun _ : Nat => (0 : Int)) k := by
      intro k hk
      rw [List.mem_range] at hk
      rw [if_neg (fun he => hi (blockInj dim i k i0 k0 hk hk0 he).1)]
    rw [List.map_congr_left hc]
    exact sum_map_zero _

theorem sumAt_timesRowList (D : SpMat) (x : List Int) (dim i i0 k0 : Nat)
    (hk0 : k0 < dim) :
    sumAt (timesRowList D x dim i) (i0*dim+k0)
      = if i = i0 then rowSum D x dim i0 k0 else 0 := by
  rw [timesRowList, sumAt_flatMap]
  by_cases hi : i = i0
  · subst hi
    rw [if_pos rfl, rowSum]
    refine congrArg List.sum (List.map_congr_left ?_)
    intro j hj
    rw [sumAt_timesKList D x dim i j i k0 hk0, if_pos rfl, Int.mul_comm]
  · rw [if_neg hi]
    have hc : ∀ j ∈ rowJs D i,
        sumAt (timesKList D x dim i j) (i0*dim+k0) = (fun _ : Nat => (0 : Int)) j := by
      intro j hj
      rw [sumAt_timesKList D x dim i j i0 k0 hk0, if_neg hi]
    rw [List.map_congr_left hc]
    exact sum_map_zero _

theorem sumAt_timesList (D : SpMat) (x : List Int) (dim nt i0 k0 : Nat)
    (hnt : 0 < nt) (hi0 : i0 < D.size) (hk0 : k0 < dim) :
    sumAt (timesList D x dim nt) (i0*dim+k0) = rowSum D x dim i0 k0 := by
  rw [timesList, sumAt_flatMap]
  have hthread : ∀ t ∈ List.range nt,
      sumAt ((segRows D.size t nt).flatMap (timesRowList D x dim)) (i0*dim+k0)
        = (if segHas 0 D.size t nt i0 then rowSum D x dim i0 k0 else 0) := by
    intro t ht
    rw [sumAt_flatMap, segRows]
    have hc : ∀ i ∈ List.range' (segLo 0 D.size t nt)
        (segHi 0 D.size t nt - segLo 0 D.size t nt),
        sumAt (timesRowList D x dim i) (i0*dim+k0)
          = (if i = i0 then (fun _ : Nat => rowSum D x dim i0 k0) i else 0) := by
      intro i hi
      rw [sumAt_timesRowList D x dim i i0 k0 hk0]
    rw [List.map_congr_left hc, sum_ite_range' _ i0 _ _]
    by_cases hh : segHas 0 D.size t nt i0 = true
    · rw [if_pos ((segHas_iff_mem _ _ _ _).1 hh), if_pos hh]
    · rw [if_neg (fun hc2 => hh ((segHas_iff_mem _ _ _ _).2 hc2)), if_neg hh]
  rw [List.map_congr_left hthread]
  exact segOwner D.size nt i0 hnt hi0 (rowSum D x dim i0 k0)

/-- `i0*dim+k0 < D.size*dim` whenever `i0 < D.size` and `k0 < dim`. -/
theorem block_lt (sz dim i0 k0 : Nat) (hi : i0 < sz) (hk0 : k0 < dim) :
    i0*dim+k0 < sz*dim := by
  have h1 : i0*dim+k0 < (i0+1)*dim := by
    rw [Nat.succ_mul]
    omega
  exact Nat.lt_of_lt_of_le h1 (Nat.mul_le_mul_right dim (Nat.succ_le_of_lt hi))

/-- Entry `(i0, k0)` of the private `Times`, for any thread count. -/
theorem timesPriv_getD (D : SpMat) (x : List Int) (dim nt : Nat) (y : List Int)
    (hnt : 0 < nt) (i0 k0 : Nat) (hi : i0 < D.size) (hk0 : k0 < dim)
    (hm : i0*dim+k0 < y.length) :
    (timesPriv D x dim nt y).getD (i0*dim+k0) 0 = rowSum D x dim i0 k0 := by
  rw [timesPriv_eq, getD_applyOps, length_fillLoop, if_pos hm, getD_fillLoop,
    if_pos ⟨block_lt D.size dim i0 k0 hi hk0, hm⟩,
    sumAt_timesList D x dim nt i0 k0 hnt hi hk0, zero_add]

/-! ### `TransTimes` as a batch of updates -/

theorem transRowBody_eq (D : SpMat) (x : List Int) (ySize dim nt t : Nat)
    (y : List Int) (i : Nat) :
    transRowBody D x ySize dim nt t y i
      = applyOps (transRowList D x (ySize / dim) dim nt t i) y := by
  by_cases h : D.off i = D.off (i+1)
  · rw [transRowBody, if_pos h, transRowList, rowJs, h, Nat.sub_self]
    rfl
  · rw [transRowBody, if_neg h, transRowList]
    cases hv : D.value with
    | some v =>
      rw [if_pos (by rfl)]
      rw [foldRange_eq_foldl]
      have hbody : (fun (y : List Int) (j : Nat) =>
          if segHas 0 (ySize / dim) t nt (D.idx j) then
            foldRange 0 dim (fun y k =>
              y.set (D.idx j * dim + k)
                (y.getD (D.idx j * dim + k) 0 + x.getD (i*dim+k) 0 * D.valAt j)) y
          else y)
          = (fun (y : List Int) (j : Nat) =>
              applyOps (if segHas 0 (ySize / dim) t nt (D.idx j) then
                transKList D x dim i j else []) y) := by
        funext y j
        by_cases hs : segHas 0 (ySize / dim) t nt (D.idx j) = true
        · rw [if_pos hs, if_pos hs, foldRange_eq_foldl, Nat.sub_zero,
            ← List.range_eq_range', transKList]
          exact foldl_setAdd (List.range dim) _ _ y
        · rw [if_neg hs, if_neg hs, applyOps_nil]
      rw [hbody, foldl_applyOps, rowJs]
    | none =>
      rw [if_neg (by simp)]
      rw [foldRange_eq_foldl]
      have hvj : ∀ j, D.valAt j = 1 := by
        intro j
        rw [SpMat.valAt, hv]
      have hklist : ∀ j, transKList D x dim i j
          = (List.range dim).map (fun k => (D.idx j * dim + k, x.getD (i*dim+k) 0)) := by
        intro j
        simp only [transKList, hvj, mul_one]
      have hbody : (fun (y : List Int) (j : Nat) =>
          if segHas 0 (ySize / dim) t nt (D.idx j) then
            foldRange 0 dim (fun y k =>
              y.set (D.idx j * dim + k)
                (y.getD (D.idx j * dim + k) 0 + x.getD (i*dim+k) 0)) y
          else y)
          = (fun (y : List Int) (j : Nat) =>
              applyOps (if segHas 0 (ySize / dim) t nt (D.idx j) then
                transKList D x dim i j else []) y) := by
        funext y j
        by_cases hs : segHas 0 (ySize / dim) t nt (D.idx j) = true
        · rw [if_pos hs, if_pos hs, foldRange_eq_foldl, Nat.sub_zero,
            ← List.range_eq_range', hklist j]
          exact foldl_setAdd (List.range dim) _ _ y
        · rw [if_neg hs, if_neg hs, applyOps_nil]
      rw [hbody, foldl_applyOps, rowJs]

theorem transTimesPriv_eq (D : SpMat) (x : List Int) (z : Option (List Int)) (p : Int)
    (ySize dim nt : Nat) (y : List Int) :
    transTimesPriv D x z p ySize dim nt y
      = applyOps (transList D x (ySize / dim) dim nt) (transInit z p ySize y) := by
  rw [transTimesPriv, foldRange_eq_foldl, Nat.sub_zero, ← List.range_eq_range']
  have hrow : (transRowBody D x ySize dim nt) = (fun (t : Nat) (y : List Int) (i : Nat) =>
      applyOps (transRowList D x (ySize / dim) dim nt t i) y) := by
    funext t y i
    exact transRowBody_eq D x ySize dim nt t y i
  have hthread : (fun (y : List Int) (t : Nat) =>
      foldRange 0 D.size (transRowBody D x ySize dim nt t) y)
      = (fun (y : List Int) (t : Nat) =>
          applyOps ((List.range D.size).flatMap (transRowList D x (ySize / dim) dim nt t)) y) := by
    funext y t
    rw [foldRange_eq_foldl, Nat.sub_zero, ← List.range_eq_range', hrow, foldl_applyOps]
  rw [hthread, foldl_applyOps, transList]

theorem sumAt_transKList (D : SpMat) (x : List Int) (dim i j e k0 : Nat)
    (hk0 : k0 < dim) :
    sumAt (transKList D x dim i j) (e*dim+k0)
      = if D.idx j = e then x.getD (i*dim+k0) 0 * D.valAt j else 0 := by
  rw [transKList, sumAt_map]
  by_cases hi : D.idx j = e
  · rw [hi, if_pos rfl]
    have hc : ∀ k ∈ List.range dim,
        (if e*dim+k = e*dim+k0 then x.getD (i*dim+k) 0 * D.valAt j else 0)
          = (if k = k0 then (fun k => x.getD (i*dim+k) 0 * D.valAt j) k else 0) := by
      intro k hk
      by_cases he : k = k0
      · subst he
        rw [if_pos rfl, if_pos rfl]
      · rw [if_neg (by omega), if_neg he]
    rw [List.map_congr_left hc, sum_ite_range _ k0 dim, if_pos hk0]
  · rw [if_neg hi]
    have hc : ∀ k ∈ List.range dim,
        (if D.idx j * dim + k = e*dim+k0 then x.getD (i*dim+k) 0 * D.valAt j else 0)
          = (fun _ : Nat => (0 : Int)) k := by
      intro k hk
      rw [List.mem_range] at hk
      rw [if_neg (fun h2 => hi (blockInj dim (D.idx j) k e k0 hk hk0 h2).1)]
    rw [List.map_congr_left hc]
    exact sum_map_zero _

/-- The contribution of one row's updates to column entry `(e, k0)`: the
thread contributes iff it owns `e`. -/
theorem sumAt_transRowList (D : SpMat) (x : List Int) (mC dim nt t i e k0 : Nat)
    (hk0 : k0 < dim) :
    sumAt (transRowList D x mC dim nt t i) (e*dim+k0)
      = if segHas 0 mC t nt e then
          ((rowJs D i).map (fun j =>
            if D.idx j = e then D.valAt j * x.getD (i*dim+k0) 0 else 0)).sum
        else 0 := by
  rw [transRowList, sumAt_flatMap]
  by_cases hh : segHas 0 mC t nt e = true
  · rw [if_pos hh]
    refine congrArg List.sum (List.map_congr_left ?_)
    intro j hj
    rw [apply_ite (fun L => sumAt L (e*dim+k0)), sumAt_nil,
      sumAt_transKList D x dim i j e k0 hk0]
    by_cases hje : D.idx j = e
    · rw [if_pos hje, hje, if_pos hh, if_pos rfl, Int.mul_comm]
    · rw [if_neg hje, if_neg hje, ite_self]
  · rw [if_neg hh]
    have hc : ∀ j ∈ rowJs D i,
        sumAt (if segHas 0 mC t nt (D.idx j) then transKList D x dim i j else [])
          (e*dim+k0) = (fun _ : Nat => (0 : Int)) j := by
      intro j hj
      rw [apply_ite (fun L => sumAt L (e*dim+k0)), sumAt_nil,
        sumAt_transKList D x dim i j e k0 hk0]
      by_cases hje : D.idx j = e
      · rw [hje, if_neg hh]
      · rw [if_neg hje, ite_self]
    rw [List.map_congr_left hc]
    exact sum_map_zero _

theorem sumAt_transList (D : SpMat) (x : List Int) (mC dim nt e k0 : Nat)
    (hnt : 0 < nt) (he : e < mC) (hk0 : k0 < dim) :
    sumAt (transList D x mC dim nt) (e*dim+k0) = colSum D x dim e k0 := by
  rw [transList, sumAt_flatMap]
  have hthread : ∀ t ∈ List.range nt,
      sumAt ((List.range D.size).flatMap (transRowList D x mC dim nt t)) (e*dim+k0)
        = (if segHas 0 mC t nt e then colSum D x dim e k0 else 0) := by
    intro t ht
    rw [sumAt_flatMap]
    by_cases hh : segHas 0 mC t nt e = true
    · rw [if_pos hh, colSum]
      refine congrArg List.sum (List.map_congr_left ?_)
      intro i hi
      rw [sumAt_transRowList D x mC dim nt t i e k0 hk0, if_pos hh]
    · rw [if_neg hh]
      have hc : ∀ i ∈ List.range D.size,
          sumAt (transRowList D x mC dim nt t i) (e*dim+k0) = (fun _ : Nat => (0 : Int)) i := by
        intro i hi
        rw [sumAt_transRowList D x mC dim nt t i e k0 hk0, if_neg hh]
      rw [List.map_congr_left hc]
      exact sum_map_zero _
  rw [List.map_congr_left hthread]
  exact segOwner mC nt e hnt he (colSum D x dim e k0)

theorem length_transInit (z : Option (List Int)) (p : Int) (ySize : Nat) (y : List Int) :
    (transInit z p ySize y).length = y.length := by
  cases z with
  | some zv => exact length_fillLoop _ _ _
  | none => exact length_fillLoop _ _ _

theorem getD_transInit (z : Option (List Int)) (p : Int) (ySize : Nat) (y : List Int)
    (m : Nat) :
    (transInit z p ySize y).getD m 0
      = if m < ySize ∧ m < y.length then transInitVal z p m else y.getD m 0 := by
  cases z with
  | some zv => rw [transInit, getD_fillLoop, transInitVal]
  | none => rw [transInit, getD_fillLoop, transInitVal]

/-- Entry `(e, k0)` of the private `TransTimes`, for any thread count:
the initial fill plus the column scatter-sum. -/
theorem transTimesPriv_getD (D : SpMat) (x : List Int) (z : Option (List Int))
    (p : Int) (dim nt : Nat) (y : List Int) (hnt : 0 < nt) (e k0 : Nat)
    (he : e < y.length / dim) (hk0 : k0 < dim) :
    (transTimesPriv D x z p y.length dim nt y).getD (e*dim+k0) 0
      = transInitVal z p (e*dim+k0) + colSum D x dim e k0 := by
  have hm : e*dim+k0 < y.length := by
    have h1 : e*dim+k0 < (y.length / dim) * dim :=
      block_lt (y.length / dim) dim e k0 he hk0
    exact Nat.lt_of_lt_of_le h1 (Nat.div_mul_le_self y.length dim)
  rw [transTimesPriv_eq, getD_applyOps, length_transInit, if_pos hm,
    sumAt_transList D x (y.length / dim) dim nt e k0 hnt he hk0,
    getD_transInit, if_pos ⟨hm, hm⟩]

/-! ### Public-level facts -/

theorem length_timesPriv (D : SpMat) (x : List Int) (dim nt : Nat) (y : List Int) :
    (timesPriv D x dim nt y).length = y.length := by
  rw [timesPriv_eq, length_applyOps, length_fillLoop]

theorem length_transTimesPriv (D : SpMat) (x : List Int) (z : Option (List Int))
    (p : Int) (ySize dim nt : Nat) (y : List Int) :
    (transTimesPriv D x z p ySize dim nt y).length = y.length := by
  rw [transTimesPriv_eq, length_applyOps, length_transInit]

theorem isEmpty_false_of_ne_nil {x : List Int} (hx : x ≠ []) : ¬(x.isEmpty = true) :=
  fun h => hx (List.isEmpty_iff.1 h)

theorem Times_of_ne_nil (D : SpMat) (x y : List Int) (nt : Nat) (hx : x ≠ []) :
    Times D x y nt = timesPriv D x (y.length / D.size) nt y := by
  rw [Times, if_neg (isEmpty_false_of_ne_nil hx)]

/-! ### The claims -/

/-- Claim C1: for every row-compressed matrix `D` and dense `x`, with a
pre-allocated `y` of shape `D.size × dim`, `Times` sets `y[i*dim+k]` to
`Σ_{j ∈ [offset[i], offset[i+1])} value[j] * x[index[j]*dim+k]` — unit
weights when there is no value array, and rows with an empty offset range
stay at the initial zero since their sum is empty. -/
theorem claim1_Times_entries (D : SpMat) (x y : List Int) (dim nt : Nat)
    (hx : x ≠ []) (hsz : 0 < D.size) (hy : y.length = D.size * dim) (hnt : 0 < nt)
    (i k : Nat) (hi : i < D.size) (hk : k < dim) :
    (Times D x y nt).getD (i*dim+k) 0 = rowSum D x dim i k := by
  rw [Times_of_ne_nil D x y nt hx, hy, Nat.mul_div_cancel_left dim hsz]
  refine timesPriv_getD D x dim nt y hnt i k hi hk ?_
  rw [hy]
  exact block_lt D.size dim i k hi hk

/-- Witness for C1: the spec's 3×2 scenario (`Times(D, [5,7]) = [5,31,0]`)
and a matrix with no value array. -/
theorem claim1_witness :
    ([5, 7] : List Int) ≠ [] ∧
    (Times Dex [5, 7] [0, 0, 0] 2).getD (1*1+0) 0 = rowSum Dex [5, 7] 1 1 0 ∧
    (Times DexNoVal [5, 7] [0, 0] 1).getD (0*1+0) 0 = rowSum DexNoVal [5, 7] 1 0 0 ∧
    Times Dex [5, 7] [0, 0, 0] 2 = [5, 31, 0] :=
  ⟨by decide,
   claim1_Times_entries Dex [5, 7] [0, 0, 0] 1 2 (by decide) (by decide) (by decide)
     (by decide) 1 0 (by decide) (by decide),
   claim1_Times_entries DexNoVal [5, 7] [0, 0] 1 1 (by decide) (by decide) (by decide)
     (by decide) 0 0 (by decide) (by decide),
   by decide⟩

/-- Claim C2: the biased `TransTimes(D, x, p, z, y)` computes
`y = Dᵀx + p·z` elementwise when `z` matches `y` in size — including
`p = 0`, where it reduces to the plain transpose product — and the
two-argument `TransTimes(D, x, y)` equals `Dᵀx`. -/
theorem claim2_TransTimes (D : SpMat) (x z y : List Int) (p : Int) (dim mC nt : Nat)
    (hsz : 0 < D.size) (hxlen : x.length = D.size * dim) (hdim : 0 < dim)
    (hy : y.length = mC * dim) (hnt : 0 < nt) (e k : Nat) (he : e < mC) (hk : k < dim) :
    (z.length = y.length →
      (TransTimes D x p z y nt).getD (e*dim+k) 0
        = colSum D x dim e k + p * z.getD (e*dim+k) 0) ∧
    (TransTimesPlain D x y nt).getD (e*dim+k) 0 = colSum D x dim e k := by
  have hx : x ≠ [] := by
    intro h
    rw [h] at hxlen
    have := Nat.mul_pos hsz hdim
    simp at hxlen
    omega
  have hdimc : x.length / D.size = dim := by
    rw [hxlen, Nat.mul_div_cancel_left dim hsz]
  have he' : e < y.length / dim := by
    rw [hy, Nat.mul_div_cancel mC hdim]
    exact he
  constructor
  · intro hz
    rw [TransTimes, if_neg (isEmpty_false_of_ne_nil hx)]
    by_cases hp : p = 0
    · subst hp
      rw [if_neg (fun hc => hc.2 rfl), hdimc,
        transTimesPriv_getD D x none 0 dim nt y hnt e k he' hk]
      show (0:Int) + colSum D x dim e k = _
      ring
    · rw [if_pos ⟨hz, hp⟩, hdimc,
        transTimesPriv_getD D x (some z) p dim nt y hnt e k he' hk]
      show z.getD (e*dim+k) 0 * p + colSum D x dim e k = _
      ring
  · rw [TransTimesPlain, TransTimes, if_neg (isEmpty_false_of_ne_nil hx),
      if_neg (fun hc : ([] : List Int).length = y.length ∧ (0:Int) ≠ 0 => hc.2 rfl),
      hdimc, transTimesPriv_getD D x none 0 dim nt y hnt e k he' hk]
    show (0:Int) + colSum D x dim e k = _
    ring

/-- Witness for C2: on the 3×2 example with `x = [1,1,0]` the transpose
product is `[3,3]` and the bias `p = 2, z = [10,20]` adds `[20,40]`. -/
theorem claim2_witness :
    ((([10, 20] : List Int).length = ([7, 7] : List Int).length →
      (TransTimes Dex [1, 1, 0] 2 [10, 20] [7, 7] 1).getD (0*1+0) 0
        = colSum Dex [1, 1, 0] 1 0 0 + 2 * ([10, 20] : List Int).getD (0*1+0) 0) ∧
    (TransTimesPlain Dex [1, 1, 0] [7, 7] 1).getD (0*1+0) 0
      = colSum Dex [1, 1, 0] 1 0 0) :=
  claim2_TransTimes Dex [1, 1, 0] [10, 20] [7, 7] 2 1 2 1 (by decide) (by decide)
    (by decide) (by decide) (by decide) 0 0 (by decide) (by decide)

/-- Claim C6: with an empty input `x`, `Times` and both forms of
`TransTimes` return immediately and leave `y` exactly as it was — no
zeroing and no bias fill happens. -/
theorem claim6_empty_noop (D : SpMat) (y z : List Int) (p : Int) (nt : Nat) :
    Times D [] y nt = y ∧ TransTimes D [] p z y nt = y ∧ TransTimesPlain D [] y nt = y :=
  ⟨rfl, rfl, rfl⟩

/-- Claim C7: with the spec's shapes, the output of `Times` (and of
`TransTimes`) with `nt ≥ 1` threads equals the output with one thread:
each entry is characterised by the same storage-order sum regardless of
the thread partition. -/
theorem claim7_thread_indep (D : SpMat) (x y z : List Int) (p : Int) (nt : Nat)
    (hnt : 0 < nt) :
    (∀ dim, y.length = D.size * dim → Times D x y nt = Times D x y 1) ∧
    (∀ dim mC, 0 < D.size → 0 < dim → x.length = D.size * dim → y.length = mC * dim →
      TransTimes D x p z y nt = TransTimes D x p z y 1) := by
  constructor
  · intro dim hy
    by_cases hx : x = []
    · subst hx
      rfl
    · rw [Times_of_ne_nil D x y nt hx, Times_of_ne_nil D x y 1 hx]
      apply List.ext_getElem
      · rw [length_timesPriv, length_timesPriv]
      · intro n h1 h2
        have hn : n < y.length := by rwa [length_timesPriv] at h1
        have hsz : 0 < D.size := by
          rcases Nat.eq_zero_or_pos D.size with h | h
          · rw [h, Nat.zero_mul] at hy
            omega
          · exact h
        have hd : 0 < dim := by
          rcases Nat.eq_zero_or_pos dim with h | h
          · rw [h, Nat.mul_zero] at hy
            omega
          · exact h
        have hdc : y.length / D.size = dim := by
          rw [hy, Nat.mul_div_cancel_left dim hsz]
        have hdecomp : n = n / dim * dim + n % dim := by
          rw [Nat.mul_comm (n / dim) dim]
          exact (Nat.div_add_mod n dim).symm
        have hi : n / dim < D.size := by
          rw [Nat.div_lt_iff_lt_mul hd, ← hy]
          exact hn
        have hk : n % dim < dim := Nat.mod_lt n hd
        rw [← List.getD_eq_getElem _ 0 h1, ← List.getD_eq_getElem _ 0 h2, hdc]
        rw [show n = n / dim * dim + n % dim from hdecomp]
        rw [timesPriv_getD D x dim nt y hnt _ _ hi hk (by rw [← hdecomp]; exact hn),
          timesPriv_getD D x dim 1 y Nat.one_pos _ _ hi hk (by rw [← hdecomp]; exact hn)]
  · intro dim mC hsz hd hxlen hy
    by_cases hx : x = []
    · subst hx
      rfl
    · have hdimc : x.length / D.size = dim := by
        rw [hxlen, Nat.mul_div_cancel_left dim hsz]
      have hpriv : ∀ (zo : Option (List Int)) (q : Int),
          transTimesPriv D x zo q y.length dim nt y
            = transTimesPriv D x zo q y.length dim 1 y := by
        intro zo q
        apply List.ext_getElem
        · rw [length_transTimesPriv, length_transTimesPriv]
        · intro n h1 h2
          have hn : n < y.length := by rwa [length_transTimesPriv] at h1
          have hdecomp : n = n / dim * dim + n % dim := by
            rw [Nat.mul_comm (n / dim) dim]
            exact (Nat.div_add_mod n dim).symm
          have he : n / dim < y.length / dim := by
            rw [hy, Nat.mul_div_cancel mC hd, Nat.div_lt_iff_lt_mul hd, ← hy]
            exact hn
          have hk : n % dim < dim := Nat.mod_lt n hd
          rw [← List.getD_eq_getElem _ 0 h1, ← List.getD_eq_getElem _ 0 h2]
          rw [show n = n / dim * dim + n % dim from hdecomp]
          rw [transTimesPriv_getD D x zo q dim nt y hnt _ _ he hk,
            transTimesPriv_getD D x zo q dim 1 y Nat.one_pos _ _ he hk]
      rw [TransTimes, TransTimes]
      by_cases hxe : x.isEmpty = true
      · rw [if_pos hxe, if_pos hxe]
      · rw [if_neg hxe, if_neg hxe]
        by_cases hcond : z.length = y.length ∧ p ≠ 0
        · rw [if_pos hcond, if_pos hcond, hdimc]
          exact hpriv (some z) p
        · rw [if_neg hcond, if_neg hcond, hdimc]
          exact hpriv none 0

/-- Witness for C7: three threads and one thread agree on the example. -/
theorem claim7_witness :
    (0 : Nat) < 3 ∧
    Times Dex [5, 7] [0, 0, 0] 3 = Times Dex [5, 7] [0, 0, 0] 1 ∧
    TransTimes Dex [1, 1, 0] 2 [10, 20] [7, 7] 3
      = TransTimes Dex [1, 1, 0] 2 [10, 20] [7, 7] 1 :=
  ⟨by decide,
   (claim7_thread_indep Dex [5, 7] [0, 0, 0] [] 0 3 (by decide)).1 1 (by decide),
   (claim7_thread_indep Dex [1, 1, 0] [7, 7] [10, 20] 2 3 (by decide)).2 1 2
     (by decide) (by decide) (by decide) (by decide)⟩

/-- Claim C9: the bias fill of the public biased `TransTimes` is applied
iff `z.size() == y->size()` and `p != 0`; a `z` of any other length (or
`p = 0`) is silently ignored and the call behaves exactly like the plain
two-argument transpose product. -/
theorem claim9_bias_guard (D : SpMat) (x : List Int) (p : Int) (z y : List Int)
    (nt : Nat) :
    ((z.length ≠ y.length ∨ p = 0) →
      TransTimes D x p z y nt = TransTimesPlain D x y nt) ∧
    (z.length = y.length → p ≠ 0 → x ≠ [] →
      TransTimes D x p z y nt
        = transTimesPriv D x (some z) p y.length (x.length / D.size) nt y) := by
  constructor
  · intro h
    rw [TransTimesPlain, TransTimes, TransTimes]
    by_cases hx : x.isEmpty = true
    · rw [if_pos hx, if_pos hx]
    · rw [if_neg hx, if_neg hx,
        if_neg (fun hc : z.length = y.length ∧ p ≠ 0 =>
          h.elim (fun h1 => h1 hc.1) (fun h2 => hc.2 h2)),
        if_neg (fun hc : ([] : List Int).length = y.length ∧ (0:Int) ≠ 0 => hc.2 rfl)]
  · intro hz hp hx
    rw [TransTimes, if_neg (isEmpty_false_of_ne_nil hx), if_pos ⟨hz, hp⟩]

/-- Witness for C9: a length-3 `z` against a length-2 `y` is ignored, a
length-2 `z` with `p = 2` selects the bias branch. -/
theorem claim9_witness :
    (([10, 20, 30] : List Int).length ≠ ([7, 7] : List Int).length ∨ (2:Int) = 0) ∧
    TransTimes Dex [1, 1, 0] 2 [10, 20, 30] [7, 7] 1
      = TransTimesPlain Dex [1, 1, 0] [7, 7] 1 ∧
    TransTimes Dex [1, 1, 0] 2 [10, 20] [7, 7] 1
      = transTimesPriv Dex [1, 1, 0] (some [10, 20]) 2 2 1 1 [7, 7] :=
  ⟨Or.inl (by decide),
   (claim9_bias_guard Dex [1, 1, 0] 2 [10, 20, 30] [7, 7] 1).1 (Or.inl (by decide)),
   (claim9_bias_guard Dex [1, 1, 0] 2 [10, 20] [7, 7] 1).2 (by decide) (by decide)
     (by decide)⟩

/-! ### The `ProcessFile` trace: feature counts (C4) -/

theorem pushCntFlag_iff (jt : Jt) (epoch : Nat) :
    pushCntFlag jt epoch = true ↔ (jt = Jt.Training ∧ epoch = 0) := by
  simp [pushCntFlag]

theorem batchOf_of_mem_batchEvs (jt : Jt) (epoch b : Nat) (e : BEv)
    (he : e ∈ batchEvs jt epoch b) : e.batchOf = b := by
  rw [batchEvs] at he
  by_cases hf : pushCntFlag jt epoch = true
  · rw [if_pos hf] at he
    simp only [List.cons_append, List.nil_append, List.mem_cons,
      List.not_mem_nil, or_false] at he
    rcases he with h | h | h | h <;> subst h <;> rfl
  · rw [if_neg hf] at he
    simp only [List.cons_append, List.nil_append, List.mem_cons,
      List.not_mem_nil, or_false] at he
    rcases he with h | h <;> subst h <;> rfl

theorem batchEvs_of_flag (jt : Jt) (epoch b : Nat) (hf : pushCntFlag jt epoch = true) :
    batchEvs jt epoch b
      = [BEv.compact b true, BEv.pushCnt b, BEv.waitCnt b, BEv.addBatch b] := by
  rw [batchEvs, if_pos hf, hf]
  rfl

theorem processFileEvs_split (jt : Jt) (epoch n b : Nat) (hb : b < n) :
    ∃ pre suf, processFileEvs jt epoch n = pre ++ batchEvs jt epoch b ++ suf
      ∧ (∀ e ∈ pre, BEv.batchOf e ≠ b) ∧ (∀ e ∈ suf, BEv.batchOf e ≠ b) := by
  refine ⟨(List.range' 0 b).flatMap (batchEvs jt epoch),
    (List.range' (b+1) (n - b - 1)).flatMap (batchEvs jt epoch), ?_, ?_, ?_⟩
  · rw [processFileEvs, List.range_eq_range']
    have h1 : List.range' 0 b ++ List.range' b (n - b) = List.range' 0 n := by
      have h := List.range'_append 0 b (n - b) 1
      rw [Nat.zero_add, Nat.one_mul] at h
      rw [h]
      congr 1
      omega
    have h2 : List.range' b (n - b) = b :: List.range' (b+1) (n - b - 1) := by
      conv_lhs => rw [show n - b = (n - b - 1) + 1 from by omega]
      rw [List.range'_succ]
    rw [← h1, List.flatMap_append, h2, List.flatMap_cons, List.append_assoc]
  · intro e he
    rw [List.mem_flatMap] at he
    obtain ⟨b', hb', hbe⟩ := he
    rw [List.mem_range'_1] at hb'
    rw [batchOf_of_mem_batchEvs jt epoch b' e hbe]
    omega
  · intro e he
    rw [List.mem_flatMap] at he
    obtain ⟨b', hb', hbe⟩ := he
    rw [List.mem_range'_1] at hb'
    rw [batchOf_of_mem_batchEvs jt epoch b' e hbe]
    omega

/-- Claim C4: in the `ProcessFile` loop, feature counts are requested from
the localizer iff `job.type == Training && job.epoch == 0`; when they are,
batch `b`'s events are exactly compact → push(FeaCount) → wait → add, so
both the push and the wait on it strictly precede the batch's submission
to the tracker (no event of batch `b` occurs elsewhere in the trace). -/
theorem claim4_count_push_order (jt : Jt) (epoch n b : Nat) (hb : b < n) :
    (BEv.pushCnt b ∈ processFileEvs jt epoch n ↔ (jt = Jt.Training ∧ epoch = 0)) ∧
    (BEv.compact b true ∈ processFileEvs jt epoch n ↔ (jt = Jt.Training ∧ epoch = 0)) ∧
    (jt = Jt.Training → epoch = 0 →
      ∃ pre suf, processFileEvs jt epoch n
          = pre ++ [BEv.compact b true, BEv.pushCnt b, BEv.waitCnt b, BEv.addBatch b] ++ suf
        ∧ (∀ e ∈ pre, BEv.batchOf e ≠ b) ∧ (∀ e ∈ suf, BEv.batchOf e ≠ b)) := by
  refine ⟨⟨?_, ?_⟩, ⟨?_, ?_⟩, ?_⟩
  · intro hmem
    rw [processFileEvs, List.mem_flatMap] at hmem
    obtain ⟨b', hb', hbe⟩ := hmem
    rw [← pushCntFlag_iff]
    by_cases hf : pushCntFlag jt epoch = true
    · exact hf
    · rw [batchEvs, if_neg hf] at hbe
      simp at hbe
  · intro hc
    have hf : pushCntFlag jt epoch = true := (pushCntFlag_iff jt epoch).2 hc
    rw [processFileEvs, List.mem_flatMap]
    exact ⟨b, List.mem_range.2 hb, by rw [batchEvs_of_flag jt epoch b hf]; simp⟩
  · intro hmem
    rw [processFileEvs, List.mem_flatMap] at hmem
    obtain ⟨b', hb', hbe⟩ := hmem
    rw [← pushCntFlag_iff]
    by_cases hf : pushCntFlag jt epoch = true
    · exact hf
    · rw [batchEvs, if_neg hf] at hbe
      simp only [List.cons_append, List.nil_append, List.mem_cons,
        List.not_mem_nil, or_false] at hbe
      rcases hbe with h | h
      · injection h with h1 h2
        exact absurd h2.symm hf
      · exact absurd h (by simp)
  · intro hc
    have hf : pushCntFlag jt epoch = true := (pushCntFlag_iff jt epoch).2 hc
    rw [processFileEvs, List.mem_flatMap]
    exact ⟨b, List.mem_range.2 hb, by rw [batchEvs_of_flag jt epoch b hf]; simp⟩
  · intro hjt hep
    have hf : pushCntFlag jt epoch = true := (pushCntFlag_iff jt epoch).2 ⟨hjt, hep⟩
    obtain ⟨pre, suf, heq, hpre, hsuf⟩ := processFileEvs_split jt epoch n b hb
    exact ⟨pre, suf, by rw [heq, batchEvs_of_flag jt epoch b hf], hpre, hsuf⟩

/-- Witness for C4 on a five-batch training pass at epoch 0. -/
theorem claim4_witness :
    (2 : Nat) < 5 ∧
    (BEv.pushCnt 2 ∈ processFileEvs Jt.Training 0 5 ↔ (Jt.Training = Jt.Training ∧ (0:Nat) = 0)) := by
  refine ⟨by decide, ?_⟩
  exact (claim4_count_push_order Jt.Training 0 5 2 (by decide)).1

/-! ### The `ProcessFile` pipeline invariants (C3, C5) -/

/-- One step never takes the outstanding count above 11: `read` fires
only after observing `NumRemains() ≤ 10`, and every other step can only
shrink or keep the count. -/
theorem pf_step_numRemains (jt : Jt) (s1 s2 : PFState) (hst : PFStep jt s1 s2)
    (h1 : numRemains s1 ≤ 11) : numRemains s2 ≤ 11 := by
  cases hst with
  | read hp hbp hrv =>
    simp only [numRemains, List.countP_append] at hbp ⊢
    have hone : List.countP (fun st => st != BSt.done) [BSt.submitted] = 1 := by decide
    omega
  | pullDone i hi =>
    obtain ⟨hlen, hget⟩ := List.getElem?_eq_some.1 hi
    have hset := List.countP_set (fun st => st != BSt.done) s1.batches i
      (if jt = Jt.Training then BSt.pushing else BSt.done) hlen
    rw [hget] at hset
    simp only [numRemains] at h1 ⊢
    have hv : (if ((if jt = Jt.Training then BSt.pushing else BSt.done) != BSt.done) = true
        then 1 else 0) ≤ 1 := by
      split
      · exact Nat.le_refl 1
      · exact Nat.zero_le 1
    have hs1 : (if (BSt.submitted != BSt.done) = true then 1 else 0) = 1 := by
      decide
    omega
  | pushDone i hi =>
    obtain ⟨hlen, hget⟩ := List.getElem?_eq_some.1 hi
    have hset := List.countP_set (fun st => st != BSt.done) s1.batches i BSt.done hlen
    rw [hget] at hset
    simp only [numRemains] at h1 ⊢
    have hp1 : (if (BSt.pushing != BSt.done) = true then 1 else 0) = 1 := by
      decide
    have hp0 : (if (BSt.done != BSt.done) = true then 1 else 0) = 0 := by
      decide
    omega
  | ret hp hdrain hrv =>
    simp only [numRemains] at h1 ⊢
    exact h1

theorem pf_backpressure_invariant (jt : Jt) (n : Nat) (s : PFState)
    (h : Relation.ReflTransGen (PFStep jt) ⟨n, [], false⟩ s) :
    numRemains s ≤ 11 := by
  induction h with
  | refl => simp [numRemains]
  | tail hr st ih => exact pf_step_numRemains jt _ _ st ih

/-- One training step preserves "if returned then everything is done". -/
theorem pf_step_returned (s1 s2 : PFState) (hst : PFStep Jt.Training s1 s2)
    (h1 : s1.returned = true → ∀ st ∈ s1.batches, st = BSt.done) :
    s2.returned = true → ∀ st ∈ s2.batches, st = BSt.done := by
  cases hst with
  | read hp hbp hrv => exact fun hret => absurd hret Bool.false_ne_true
  | ret hp hdrain hrv =>
    intro hret st hst
    rw [numRemains, List.countP_eq_zero] at hdrain
    have := hdrain st hst
    simpa using this
  | pullDone i hi =>
    intro hret
    have hall := h1 hret
    obtain ⟨hlen, hget⟩ := List.getElem?_eq_some.1 hi
    have hmem : BSt.submitted ∈ s1.batches := hget ▸ List.getElem_mem hlen
    exact absurd (hall BSt.submitted hmem) (by decide)
  | pushDone i hi =>
    intro hret
    have hall := h1 hret
    obtain ⟨hlen, hget⟩ := List.getElem?_eq_some.1 hi
    have hmem : BSt.pushing ∈ s1.batches := hget ▸ List.getElem_mem hlen
    exact absurd (hall BSt.pushing hmem) (by decide)

theorem pf_returned_all_done (n : Nat) (s : PFState)
    (h : Relation.ReflTransGen (PFStep Jt.Training) ⟨n, [], false⟩ s) :
    s.returned = true → ∀ st ∈ s.batches, st = BSt.done := by
  induction h with
  | refl => exact fun hret => absurd hret Bool.false_ne_true
  | tail hr st ih => exact pf_step_returned _ _ st ih

/-- In a training run a batch is `done` after a step only if it already
was, or its gradient push was outstanding and its done-callback fired. -/
theorem pf_training_done_only_by_push (s1 s2 : PFState)
    (hst : PFStep Jt.Training s1 s2) (i : Nat)
    (hdone : s2.batches[i]? = some BSt.done) :
    s1.batches[i]? = some BSt.done ∨ s1.batches[i]? = some BSt.pushing := by
  cases hst with
  | read hp hbp hrv =>
    by_cases hl : i < s1.batches.length
    · rw [List.getElem?_append, if_pos hl] at hdone
      exact Or.inl hdone
    · rw [List.getElem?_append_right (Nat.le_of_not_lt hl)] at hdone
      rcases hsub : i - s1.batches.length with _ | m
      · rw [hsub] at hdone
        simp at hdone
      · rw [hsub] at hdone
        simp at hdone
  | pullDone j hj =>
    rw [List.getElem?_set] at hdone
    by_cases hij : j = i
    · rw [if_pos hij] at hdone
      by_cases hjl : j < s1.batches.length
      · rw [if_pos hjl] at hdone
        simp at hdone
      · rw [if_neg hjl] at hdone
        simp at hdone
    · rw [if_neg hij] at hdone
      exact Or.inl hdone
  | pushDone j hj =>
    rw [List.getElem?_set] at hdone
    by_cases hij : j = i
    · subst hij
      exact Or.inr hj
    · rw [if_neg hij] at hdone
      exact Or.inl hdone
  | ret hp hdrain hrv => exact Or.inl hdone

/-- Claim C3: on a training partition, once `ProcessFile` has returned
every streamed batch is `done`, and a batch can only become `done` through
the gradient-push done-callback (from `pushing`) or by already being done
— so the call never returns while any batch's gradient push (or pull) is
still outstanding. -/
theorem claim3_drain_before_return (n : Nat) (s : PFState)
    (h : PFReach Jt.Training n s) :
    (s.returned = true → ∀ st ∈ s.batches, st = BSt.done) ∧
    (∀ s1 s2 : PFState, PFStep Jt.Training s1 s2 → ∀ i : Nat,
      s2.batches[i]? = some BSt.done →
      s1.batches[i]? = some BSt.done ∨ s1.batches[i]? = some BSt.pushing) :=
  ⟨pf_returned_all_done n s h, fun s1 s2 hst i hdone =>
    pf_training_done_only_by_push s1 s2 hst i hdone⟩

/-- Claim C5: along every execution of `ProcessFile`, the batch tracker's
outstanding count never exceeds the backpressure threshold 10 by more than
the single in-flight submission — it is at most 11 in every reachable
state. -/
theorem claim5_backpressure (jt : Jt) (n : Nat) (s : PFState)
    (h : PFReach jt n s) : numRemains s ≤ 11 :=
  pf_backpressure_invariant jt n s h

/-- Witness for C3: a full life cycle of one training batch — read,
pull-done, push-done, return — ends returned with every batch done. -/
theorem claim3_witness :
    ({ pending := 0, batches := [BSt.done], returned := true } : PFState).returned = true ∧
    (∀ st ∈ ({ pending := 0, batches := [BSt.done], returned := true } : PFState).batches,
      st = BSt.done) := by
  have h1 : PFStep Jt.Training ⟨1, [], false⟩ ⟨0, [BSt.submitted], false⟩ :=
    PFStep.read ⟨1, [], false⟩ (by decide) (by decide) rfl
  have h2 : PFStep Jt.Training ⟨0, [BSt.submitted], false⟩ ⟨0, [BSt.pushing], false⟩ :=
    PFStep.pullDone ⟨0, [BSt.submitted], false⟩ 0 rfl
  have h3 : PFStep Jt.Training ⟨0, [BSt.pushing], false⟩ ⟨0, [BSt.done], false⟩ :=
    PFStep.pushDone ⟨0, [BSt.pushing], false⟩ 0 rfl
  have h4 : PFStep Jt.Training ⟨0, [BSt.done], false⟩ ⟨0, [BSt.done], true⟩ :=
    PFStep.ret ⟨0, [BSt.done], false⟩ rfl (by decide) rfl
  have hreach : PFReach Jt.Training 1 ⟨0, [BSt.done], true⟩ :=
    Relation.ReflTransGen.tail (Relation.ReflTransGen.tail (Relation.ReflTransGen.tail
      (Relation.ReflTransGen.tail Relation.ReflTransGen.refl h1) h2) h3) h4
  exact ⟨rfl, (claim3_drain_before_return 1 ⟨0, [BSt.done], true⟩ hreach).1 rfl⟩

/-- Witness for C5: after reading one batch the outstanding count is
within the bound. -/
theorem claim5_witness :
    numRemains ({ pending := 0, batches := [BSt.submitted], returned := false } : PFState)
      ≤ 11 := by
  have h1 : PFStep Jt.Validation ⟨3, [], false⟩ ⟨2, [BSt.submitted], false⟩ :=
    PFStep.read ⟨3, [], false⟩ (by decide) (by decide) rfl
  exact claim5_backpressure Jt.Validation 3 ⟨2, [BSt.submitted], false⟩
    (Relation.ReflTransGen.tail Relation.ReflTransGen.refl h1)

/-! ### `DiFacto::Init` and `RunScheduler` (C8, C10) -/

/-- Claim C8: `Init` never fails on unrecognized keyword arguments — it
returns whatever the four sub-inits leave unconsumed — and it logs the
unknown-argument warning iff the mode is local (no `"dist_"` in the task
string) and that remainder is nonempty; in distributed mode there is no
warning. -/
theorem claim8_init_warn (task : String)
    (paramInit trackerInit storeInit lossInit :
      List (String × String) → List (String × String))
    (kwargs : List (String × String)) :
    (difactoInit task paramInit trackerInit storeInit lossInit kwargs).remain
      = lossInit (storeInit (trackerInit (paramInit kwargs))) ∧
    ((difactoInit task paramInit trackerInit storeInit lossInit kwargs).warned = true ↔
      (hasSub "dist_" task = false ∧
        (difactoInit task paramInit trackerInit storeInit lossInit kwargs).remain ≠ [])) := by
  refine ⟨rfl, ?_⟩
  simp [difactoInit, isLocal, Bool.and_eq_true, Bool.not_eq_true', List.isEmpty_eq_false]

/-- Claim C10: when the task string contains `"predict"` but `model_in`
is empty, `RunScheduler` dies on `CHECK(param_.model_in.size())` before
submitting any prediction or training jobs; with a nonempty `model_in`
the load-model job precedes everything else and no check fires. -/
theorem claim10_predict_check (p : DFParam)
    (hpred : hasSub "predict" p.task = true) :
    (p.model_in = "" → runScheduler p = ([], true)) ∧
    (p.model_in ≠ "" → ∃ rest, (runScheduler p).1 = SEv.loadModel p.model_in :: rest ∧
      (runScheduler p).2 = false) := by
  constructor
  · intro hm
    rw [runScheduler, if_pos hpred, if_pos hm, if_neg (fun hc => hc hm)]
  · intro hm
    rw [runScheduler, if_pos hpred, if_neg hm, if_pos hm]
    exact ⟨runEpochEvs p 0 Jt.Prediction ++ trainEvs p, rfl, rfl⟩

/-- Witness for C10: a prediction task with no input model aborts with an
empty action list. -/
theorem claim10_witness :
    hasSub "predict" "predict_task" = true ∧
    runScheduler ⟨"predict_task", "", "data", "", 2⟩ = ([], true) :=
  ⟨by decide,
   (claim10_predict_check ⟨"predict_task", "", "data", "", 2⟩ (by decide)).1 rfl⟩

end Difacto
